import Mathlib

/-!
# ls2: recursive directory listing and exact-name search

A shallow embedding of `src/ls2.c` (`mode1`, `mode2`, `configure`).

Modelling conventions.

* A C string is a `List Char` (`Str`).
* The file system below the start directory is a finite tree (`Node`, `Listing`).
  A `Listing` is the sequence of entries `readdir` yields for one directory, in
  the order it yields them; it may contain the links `.` and `..` anywhere.
  `lstat` does not follow symbolic links, so the walk sees a tree.
* `opendir` succeeds exactly on `Node.dir`; `lstat` fails exactly on `Node.noStat`.
* Standard output is the string of characters written so far; the messages of
  `perror` go to standard error and are not modelled.
* In `mode1` and `mode2`, `malloc` is taken to succeed and `int depth` and the
  `size_t` length sums are natural numbers: the walk that `configure` starts at
  depth 0 adds one to `depth` per directory level, and every level adds at least
  two characters to the path handed to `opendir`, so that walk stays far inside
  the range of `int`. These definitions carry the claims about a whole search.
* `Machine.mode2` is `mode2` with the integer types of C: `int` wraps at 32 bits,
  `size_t` at 64 bits, and `malloc` returns `NULL` for a request above
  `PTRDIFF_MAX`. It carries the claims that quantify over the `depth` argument.
* `stack.c` is not part of the sources; `initstack`, `push` and `printstack`
  follow the description of the output collection in the specification.
* A `Record` is the string handed to `push` together with three ghost fields
  that remember which call pushed it and which path was formatted. The fields do
  not influence the computation.
-/

namespace Ls2

/-- C strings. -/
abbrev Str := List Char

mutual
/-- What a path names: the cases that `lstat` and `opendir` distinguish. -/
inductive Node where
  /-- a regular file of the given `st_size` -/
  | reg (size : Nat)
  /-- a directory that `opendir` opens, with what `readdir` then yields -/
  | dir (entries : Listing)
  /-- a directory that `opendir` fails to open -/
  | lockedDir
  /-- a symbolic link, FIFO, socket or device -/
  | other
  /-- an entry on which `lstat` fails -/
  | noStat
/-- The sequence of `(d_name, entry)` pairs that `readdir` yields for a directory. -/
inductive Listing where
  | nil
  | cons (name : Str) (node : Node) (rest : Listing)
end

/-- The file type bits of `st_mode`, as far as the program looks at them. -/
inductive FileType where
  | regular
  | directory
  | neither
deriving DecidableEq, Repr

/-- The fields of `struct stat` the program reads. -/
structure Stat where
  st_mode : FileType
  st_size : Nat
deriving DecidableEq, Repr

/-- The macro `S_ISREG`. -/
def S_ISREG (m : FileType) : Bool := m = FileType.regular

/-- The macro `S_ISDIR`. -/
def S_ISDIR (m : FileType) : Bool := m = FileType.directory

/-- The call `lstat(fullPath, &fileStat)`: `none` stands for the return value `-1`. -/
def lstat : Node → Option Stat
  | .reg size => some ⟨FileType.regular, size⟩
  | .dir _ => some ⟨FileType.directory, 0⟩
  | .lockedDir => some ⟨FileType.directory, 0⟩
  | .other => some ⟨FileType.neither, 0⟩
  | .noStat => none

/-- The test `strcmp(d_name, ".") == 0 || strcmp(d_name, "..") == 0`. -/
def isDot (name : Str) : Bool := name = ['.'] || name = ['.', '.']

/-- The string `sprintf(fullPath, "%s/%s", dirInput, d_name)` builds. -/
def fullPathOf (dirInput name : Str) : Str := dirInput ++ ['/'] ++ name

/-- The conversion `%*s`: the argument right-justified in a field of `width` characters. -/
def pad (width : Nat) (arg : Str) : Str := List.replicate (width - arg.length) ' ' ++ arg

/-- The call `snprintf(buf, n, ...)`: of the formatted text, at most `n - 1` characters
are stored (the last byte of the buffer is the terminator). -/
def snprintf (n : Nat) (formatted : Str) : Str := formatted.take (n - 1)

/-- A string handed to `push`. `text` is the string itself; `isDir`, `depth` and
`path` are ghost fields: whether the directory call site pushed it (line 171)
rather than the file call site (line 152), the `depth` of the call of `mode2`
that pushed it, and the path that was formatted into it. -/
structure Record where
  text : Str
  isDir : Bool
  depth : Nat
  path : Str
deriving DecidableEq, Repr

/-- The output collection, oldest record first. -/
abbrev Stack := List Record

/-- Modelled from the spec: `initstack` of the absent `stack.c`; the search starts
with a fresh, empty output collection. -/
def initstack : Stack := []

/-- Modelled from the spec: `push` of the absent `stack.c`; append adds one record to
the end of the ordered sequence. -/
def push (s : Stack) (r : Record) : Stack := s ++ [r]

/-- Modelled from the spec: the order in which `printstack` of the absent `stack.c`
visits the records; the drain is last-in-first-out, the most recently appended
record is printed first. -/
def drain (s : Stack) : List Record := s.reverse

/-- Modelled from the spec: `printstack` of the absent `stack.c`; it prints every
record on a line of its own, in drain order. -/
def printstack (s : Stack) (out : Str) : Str :=
  out ++ (drain s).flatMap (fun r => r.text ++ ['\n'])

/-- The record built at lines 148-152 for a matching file, with `depth * 4` and the
buffer size as natural numbers and the allocation succeeding (see `Machine.fileRecord`
for the same lines with the integer types of C). -/
def fileRecord (depth : Nat) (fullPath : Str) : Record :=
  { text := snprintf (fullPath.length + depth * 4 + 1) (pad (depth * 4) [] ++ fullPath)
    isDir := false
    depth := depth
    path := fullPath }

/-- The record built at lines 167-171 for a directory with a matching descendant, with
`depth * 4` and the buffer size as natural numbers and the allocation succeeding (see
`Machine.dirRecord` for the same lines with the integer types of C). -/
def dirRecord (depth : Nat) (dirInput : Str) : Record :=
  { text := snprintf (dirInput.length + depth * 4 + 2) (pad (depth * 4) [] ++ dirInput ++ ['/'])
    isDir := true
    depth := depth
    path := dirInput }

/-- The loop `for (int i = 0; i < depth; i++) printf("    ");`, with `n` iterations left. -/
def printIndent : Nat → Str → Str
  | 0, out => out
  | n + 1, out => printIndent n (out ++ [' ', ' ', ' ', ' '])

mutual
/-- The function `mode1`, applied to what `dirInput` names; the result is standard
output after the call. -/
def mode1 (dirInput : Str) (depth : Nat) (out : Str) : Node → Str
  | .dir entries => mode1Loop dirInput depth entries out
  -- `opendir` returns `NULL`: `perror`, then `return`
  | _ => out
/-- The `while ((entry = readdir(dir)) != NULL)` loop of `mode1`. -/
def mode1Loop (dirInput : Str) (depth : Nat) : Listing → Str → Str
  | .nil, out => out
  | .cons name node rest, out =>
    if isDot name then mode1Loop dirInput depth rest out
    else
      let fullPath := fullPathOf dirInput name
      match lstat node with
      | some fileStat =>
        let out1 := printIndent depth out
        if S_ISREG fileStat.st_mode then
          mode1Loop dirInput depth rest
            (out1 ++ name ++ " (".toList ++ Nat.toDigits 10 fileStat.st_size ++ " bytes)\n".toList)
        else if S_ISDIR fileStat.st_mode then
          let out2 := mode1 fullPath (depth + 1) (out1 ++ name ++ "/ (directory)\n".toList) node
          mode1Loop dirInput depth rest out2
        else mode1Loop dirInput depth rest out1
      | none => mode1Loop dirInput depth rest out
end

mutual
/-- The function `mode2`, applied to what `dirInput` names; the result is the
returned `int` and the stack after the call. -/
def mode2 (dirInput : Str) (depth : Nat) (keyword : Str) (s : Stack) : Node → Nat × Stack
  | .dir entries =>
    let r := mode2Loop dirInput depth keyword entries 0 s
    if r.1 ≠ 0 then (r.1, push r.2 (dirRecord depth dirInput)) else (r.1, r.2)
  -- `opendir` returns `NULL`: `perror`, then `return 0`
  | _ => (0, s)
/-- The `while ((entry = readdir(dir)) != NULL)` loop of `mode2`; the state is
`hasMatchingDescendant` and the stack. -/
def mode2Loop (dirInput : Str) (depth : Nat) (keyword : Str) :
    Listing → Nat → Stack → Nat × Stack
  | .nil, hasMatchingDescendant, s => (hasMatchingDescendant, s)
  | .cons name node rest, hasMatchingDescendant, s =>
    if isDot name then mode2Loop dirInput depth keyword rest hasMatchingDescendant s
    else
      let fullPath := fullPathOf dirInput name
      match lstat node with
      | none => mode2Loop dirInput depth keyword rest hasMatchingDescendant s
      | some fileStat =>
        if S_ISDIR fileStat.st_mode then
          let r := mode2 fullPath (depth + 1) keyword s node
          mode2Loop dirInput depth keyword rest
            (if r.1 ≠ 0 then 1 else hasMatchingDescendant) r.2
        else if S_ISREG fileStat.st_mode && name = keyword then
          mode2Loop dirInput depth keyword rest 1 (push s (fileRecord depth fullPath))
        else mode2Loop dirInput depth keyword rest hasMatchingDescendant s
end

/-- The function `configure`; `matchPattern = none` is the `NULL` pattern. -/
def configure (dirInput : Str) (matchPattern : Option Str) (root : Node) (out : Str) : Str :=
  let s := initstack
  match matchPattern with
  | none => mode1 dirInput 0 out root
  | some pat =>
    let out1 := out ++ "Looking for: ".toList ++ pat ++ ['\n']
    printstack (mode2 dirInput 0 pat s root).2 out1

/-! ## The record pushes of `mode2` with the integer types of C

`mode2` above takes `depth`, `depth * 4` and the buffer sizes as natural numbers, which is
what they are on every walk that `configure` starts at depth 0. The definitions of
`Machine` repeat `mode2` with `int depth` as a 32-bit two's complement integer, with
the buffer sizes as 64-bit `size_t` values, and with the `NULL` test on the two formatted
buffers. The request for `fullPath` is the sum of the lengths of two strings that are in
memory, and is taken to succeed as before. -/

namespace Machine

/-- The largest value of `int`. -/
def INT_MAX : Nat := 2147483647

/-- The largest value of `ptrdiff_t`, the largest request `malloc` accepts. -/
def PTRDIFF_MAX : Nat := 9223372036854775807

/-- The value of an `int` expression whose mathematical value is `x`: 32-bit two's
complement wrap-around. -/
def wrapInt (x : Int) : Int := (x + 2147483648) % 4294967296 - 2147483648

/-- The value of a `size_t` expression whose mathematical value is `x`: reduction
modulo `2 ^ 64`, which is also how an `int` operand is converted. -/
def wrapSize (x : Int) : Nat := (x % 18446744073709551616).toNat

/-- The test `malloc(size) != NULL`: a request above `PTRDIFF_MAX` fails, memory is
taken to suffice for every other request. -/
def malloc (size : Nat) : Bool := decide (size ≤ PTRDIFF_MAX)

/-- The conversion `%*s` with an `int` width: a negative width asks for the argument
left-justified in a field of `-width` characters. -/
def padInt (width : Int) (arg : Str) : Str :=
  if 0 ≤ width then List.replicate (width.toNat - arg.length) ' ' ++ arg
  else arg ++ List.replicate (width.natAbs - arg.length) ' '

/-- Lines 148-152: the buffer for a matching file, `none` when `malloc` returns `NULL`
and nothing is pushed. -/
def fileRecord (depth : Int) (fullPath : Str) : Option Record :=
  let width := wrapInt (depth * 4)
  let size := wrapSize (fullPath.length + width + 1)
  if malloc size then
    some { text := snprintf size (padInt width [] ++ fullPath)
           isDir := false
           depth := depth.toNat
           path := fullPath }
  else none

/-- Lines 167-171: the buffer for the directory itself, `none` when `malloc` returns
`NULL` and nothing is pushed. -/
def dirRecord (depth : Int) (dirInput : Str) : Option Record :=
  let width := wrapInt (depth * 4)
  let size := wrapSize (dirInput.length + width + 2)
  if malloc size then
    some { text := snprintf size (padInt width [] ++ dirInput ++ ['/'])
           isDir := true
           depth := depth.toNat
           path := dirInput }
  else none

mutual
/-- The function `mode2` with `int depth`; the result is the returned `int` and the
stack after the call. -/
def mode2 (dirInput : Str) (depth : Int) (keyword : Str) (s : Stack) : Node → Nat × Stack
  | .dir entries =>
    let r := mode2Loop dirInput depth keyword entries 0 s
    if r.1 ≠ 0 then
      match dirRecord depth dirInput with
      | some formattedDirPath => (r.1, push r.2 formattedDirPath)
      | none => (r.1, r.2)
    else (r.1, r.2)
  -- `opendir` returns `NULL`: `perror`, then `return 0`
  | _ => (0, s)
/-- The `while ((entry = readdir(dir)) != NULL)` loop of `mode2` with `int depth`. -/
def mode2Loop (dirInput : Str) (depth : Int) (keyword : Str) :
    Listing → Nat → Stack → Nat × Stack
  | .nil, hasMatchingDescendant, s => (hasMatchingDescendant, s)
  | .cons name node rest, hasMatchingDescendant, s =>
    if isDot name then mode2Loop dirInput depth keyword rest hasMatchingDescendant s
    else
      let fullPath := fullPathOf dirInput name
      match lstat node with
      | none => mode2Loop dirInput depth keyword rest hasMatchingDescendant s
      | some fileStat =>
        if S_ISDIR fileStat.st_mode then
          let r := mode2 fullPath (wrapInt (depth + 1)) keyword s node
          mode2Loop dirInput depth keyword rest
            (if r.1 ≠ 0 then 1 else hasMatchingDescendant) r.2
        else if S_ISREG fileStat.st_mode && name = keyword then
          match fileRecord depth fullPath with
          | some formattedFilePath =>
            mode2Loop dirInput depth keyword rest 1 (push s formattedFilePath)
          | none => mode2Loop dirInput depth keyword rest 1 s
        else mode2Loop dirInput depth keyword rest hasMatchingDescendant s
end

end Machine

/-- A directory holding the regular file `b.txt` and nothing else. -/
def singleFileTree : Node :=
  .dir (.cons "b.txt".toList (.reg 7) .nil)

/-! ## The directory tree as the specification sees it -/

/-- An entry of the tree: its full path, its nesting level below the start directory
(0 for the direct children), its name, and what it is. -/
structure Item where
  path : Str
  level : Nat
  name : Str
  node : Node

mutual
/-- The direct and transitive entries below the directory `p`, in pre-order, the
direct children at level `lvl`. -/
def Node.descendants (p : Str) (lvl : Nat) : Node → List Item
  | .dir entries => entries.items p lvl
  | _ => []
/-- The entries of one listing and everything below them. The links `.` and `..`
are not entries of the tree. -/
def Listing.items (p : Str) (lvl : Nat) : Listing → List Item
  | .nil => []
  | .cons name node rest =>
    if isDot name then rest.items p lvl
    else
      (⟨fullPathOf p name, lvl, name, node⟩ :: node.descendants (fullPathOf p name) (lvl + 1))
        ++ rest.items p lvl
end

/-- The item is a regular file whose name equals the keyword exactly. -/
def Item.isRegNamed (keyword : Str) (it : Item) : Bool :=
  match it.node with
  | .reg _ => it.name = keyword
  | _ => false

/-- The item is a regular file or a directory that `opendir` opens (and `lstat`
succeeds on it). -/
def Item.isRegOrOpenDir (it : Item) : Bool :=
  match it.node with
  | .reg _ => true
  | .dir _ => true
  | _ => false

/-- The call `opendir` succeeds on what the path names. -/
def Node.opens : Node → Bool
  | .dir _ => true
  | _ => false

/-- The directory `node` contains, directly or in some nested subdirectory, a
regular file named `keyword`. -/
def Node.containsMatch (keyword : Str) (node : Node) : Bool :=
  (node.descendants [] 0).any (Item.isRegNamed keyword)

/-- The start directory and every entry below it, each with its full path. -/
def placesOf (root : Str) (tree : Node) : List (Str × Node) :=
  (root, tree) :: (tree.descendants root 0).map (fun it => (it.path, it.node))

/-- The names `readdir` yields for a listing. -/
def Listing.names : Listing → List Str
  | .nil => []
  | .cons name _ rest => name :: rest.names

mutual
/-- Well-formed directory tree: within one directory no two entries share a name,
and no name contains the separator `/`. -/
def Node.wf : Node → Bool
  | .dir entries => entries.wf
  | _ => true
/-- Well-formedness of a listing and of everything below it. -/
def Listing.wf : Listing → Bool
  | .nil => true
  | .cons name node rest =>
    decide ('/' ∉ name) && decide (name ∉ rest.names) && node.wf && rest.wf
end

/-- The path `x` lies strictly inside the directory with path `q`. -/
def Inside (q x : Str) : Prop := (q ++ ['/']) <+: x

/-- The path `x` is `q` itself or lies strictly inside `q`. -/
def Under (q x : Str) : Prop := ∃ t : Str, x = q ++ t ∧ ∀ c ∈ t.head?, c = '/'

/-- The line `mode1` is to print for a regular file or a directory. -/
def Item.line (it : Item) : Str :=
  List.replicate (4 * it.level) ' ' ++ it.name ++
    (match it.node with
     | .reg size => " (".toList ++ Nat.toDigits 10 size ++ " bytes)\n".toList
     | _ => "/ (directory)\n".toList)

/-! ## The pushes of `mode2` as a function of the tree -/

mutual
/-- The records one call of `mode2` appends, oldest first. -/
def pushes (dirInput : Str) (depth : Nat) (keyword : Str) : Node → List Record
  | .dir entries =>
    let inner := pushesLoop dirInput depth keyword entries
    if inner = [] then [] else inner ++ [dirRecord depth dirInput]
  | _ => []
/-- The records one run of the loop of `mode2` appends, oldest first. -/
def pushesLoop (dirInput : Str) (depth : Nat) (keyword : Str) : Listing → List Record
  | .nil => []
  | .cons name node rest =>
    if isDot name then pushesLoop dirInput depth keyword rest
    else
      (match node with
       | .reg _ =>
         if name = keyword then [fileRecord depth (fullPathOf dirInput name)] else []
       | _ => pushes (fullPathOf dirInput name) (depth + 1) keyword node)
        ++ pushesLoop dirInput depth keyword rest
end

/-- The tree `root/{a.txt, sub/{b.txt, deep/c.txt}}`, all regular files. -/
def scenarioTree : Node :=
  .dir (.cons "a.txt".toList (.reg 5)
    (.cons "sub".toList
      (.dir (.cons "b.txt".toList (.reg 7)
        (.cons "deep".toList (.dir (.cons "c.txt".toList (.reg 9) .nil)) .nil)))
      .nil))

/-- A directory `sub` holding a symbolic link before a regular file. -/
def linkTree : Node :=
  .dir (.cons "sub".toList
    (.dir (.cons "lnk".toList .other (.cons "f".toList (.reg 0) .nil))) .nil)

/-- The tree `linkTree` with the symbolic link removed. -/
def linkTreeRemoved : Node :=
  .dir (.cons "sub".toList (.dir (.cons "f".toList (.reg 0) .nil)) .nil)

/-- A directory holding one symbolic link and nothing else. -/
def symlinkOnlyTree : Node :=
  .dir (.cons "lnk".toList .other .nil)

/-- The record `r` is neither the record of the directory `p` nor the record of its
direct child file `p/keyword`: its path is longer than `p`, and longer than `p/keyword`
if it is a file record. -/
def Machine.Elsewhere (p keyword : Str) (r : Record) : Prop :=
  p.length < r.path.length ∧ (r.isDir = false → p.length + 1 + keyword.length < r.path.length)

/-! ## Basic facts -/

theorem printIndent_eq (n : Nat) (out : Str) :
    printIndent n out = out ++ List.replicate (4 * n) ' ' := by
  induction n generalizing out with
  | zero => simp [printIndent]
  | succ n ih =>
    rw [printIndent, ih]
    have : 4 * (n + 1) = 4 + 4 * n := by ring
    rw [this, List.replicate_add]
    simp [List.replicate]

mutual
theorem mode2_eq (dirInput : Str) (depth : Nat) (keyword : Str) (s : Stack) :
    (node : Node) → mode2 dirInput depth keyword s node =
      (if pushes dirInput depth keyword node = [] then 0 else 1,
        s ++ pushes dirInput depth keyword node)
  | .dir entries => by
    have h := mode2Loop_eq dirInput depth keyword entries 0 s
    simp only [mode2, pushes, h]
    by_cases hp : pushesLoop dirInput depth keyword entries = []
    · simp [hp]
    · simp [hp, push]
  | .reg _ => by simp [mode2, pushes]
  | .lockedDir => by simp [mode2, pushes]
  | .other => by simp [mode2, pushes]
  | .noStat => by simp [mode2, pushes]
termination_by node => sizeOf node
theorem mode2Loop_eq (dirInput : Str) (depth : Nat) (keyword : Str) :
    (entries : Listing) → (has : Nat) → (s : Stack) →
      mode2Loop dirInput depth keyword entries has s =
        (if pushesLoop dirInput depth keyword entries = [] then has else 1,
          s ++ pushesLoop dirInput depth keyword entries)
  | .nil, has, s => by simp [mode2Loop, pushesLoop]
  | .cons name node rest, has, s => by
    have ih := mode2Loop_eq dirInput depth keyword rest
    by_cases hd : isDot name = true
    · simp only [mode2Loop, pushesLoop, hd, if_true]
      exact ih has s
    · cases node with
      | reg size =>
        by_cases hk : name = keyword
        · subst hk
          simp [mode2Loop, pushesLoop, hd, lstat, S_ISDIR, S_ISREG, push, ih]
        · simp [mode2Loop, pushesLoop, hd, lstat, S_ISDIR, S_ISREG, hk, ih]
      | dir entries =>
        have h := mode2_eq (fullPathOf dirInput name) (depth + 1) keyword s (.dir entries)
        simp only [mode2Loop, pushesLoop, hd, lstat, S_ISDIR, h, ih]
        by_cases hp : pushes (fullPathOf dirInput name) (depth + 1) keyword (.dir entries) = []
        · simp [hp]
        · simp [hp]
      | lockedDir => simp [mode2Loop, pushesLoop, pushes, hd, lstat, S_ISDIR, mode2, ih]
      | other => simp [mode2Loop, pushesLoop, pushes, hd, lstat, S_ISDIR, S_ISREG, ih]
      | noStat => simp [mode2Loop, pushesLoop, pushes, hd, lstat, ih]
termination_by entries => sizeOf entries
end

/-! ## Paths -/

theorem under_refl (q : Str) : Under q q := ⟨[], by simp, by simp⟩

theorem under_of_inside {q x : Str} (h : Inside q x) : Under q x := by
  obtain ⟨t, rfl⟩ := h
  exact ⟨'/' :: t, by simp, by simp⟩

theorem under_trans {a b c : Str} (hab : Under a b) (hbc : Under b c) : Under a c := by
  obtain ⟨t, rfl, ht⟩ := hab
  obtain ⟨u, rfl, hu⟩ := hbc
  refine ⟨t ++ u, by simp, ?_⟩
  cases t with
  | nil => simpa using hu
  | cons x t => simpa using ht

theorem under_fullPathOf (p name : Str) : Under p (fullPathOf p name) :=
  ⟨'/' :: name, by simp [fullPathOf], by simp⟩

theorem under_length {q x : Str} (h : Under q x) : q.length ≤ x.length := by
  obtain ⟨t, rfl, -⟩ := h
  simp

theorem not_inside_self (q : Str) : ¬ Inside q q := by
  intro h
  have := h.length_le
  simp at this

theorem not_under_fullPathOf_self (p name : Str) : ¬ Under (fullPathOf p name) p := by
  intro h
  have := under_length h
  simp [fullPathOf] at this

/-- Two names without separator that start the same string up to a separator are equal. -/
theorem name_eq_of_append_eq :
    ∀ (n m u v : Str), '/' ∉ n → '/' ∉ m → (∀ c ∈ u.head?, c = '/') → (∀ c ∈ v.head?, c = '/') →
      n ++ u = m ++ v → n = m
  | [], [], _, _, _, _, _, _, _ => rfl
  | [], c :: m, u, v, _, hm, hu, _, h => by
    exfalso
    simp only [List.nil_append] at h
    subst h
    have : c = '/' := hu c (by simp)
    subst this
    simp at hm
  | c :: n, [], u, v, hn, _, _, hv, h => by
    exfalso
    simp only [List.nil_append] at h
    subst h
    have : c = '/' := hv c (by simp)
    subst this
    simp at hn
  | c :: n, d :: m, u, v, hn, hm, hu, hv, h => by
    simp only [List.cons_append, List.cons.injEq] at h
    obtain ⟨rfl, h⟩ := h
    have := name_eq_of_append_eq n m u v (by simp at hn; tauto) (by simp at hm; tauto) hu hv h
    rw [this]

/-- Entries of one directory with different names lie under different paths. -/
theorem sibling_name_eq {p n m y : Str} (hn : '/' ∉ n) (hm : '/' ∉ m)
    (h1 : Under (fullPathOf p n) y) (h2 : Under (fullPathOf p m) y) : n = m := by
  obtain ⟨t, rfl, ht⟩ := h1
  obtain ⟨u, h, hu⟩ := h2
  simp only [fullPathOf, List.append_assoc, List.append_cancel_left_eq, List.cons_append,
    List.nil_append, List.cons.injEq, true_and] at h
  exact name_eq_of_append_eq n m t u hn hm ht hu h

/-! ## Where the pushed records lie -/

theorem mem_pushes_dir {dirInput : Str} {depth : Nat} {keyword : Str} {entries : Listing}
    {r : Record} :
    r ∈ pushes dirInput depth keyword (.dir entries) ↔
      r ∈ pushesLoop dirInput depth keyword entries ∨
        (pushesLoop dirInput depth keyword entries ≠ [] ∧ r = dirRecord depth dirInput) := by
  by_cases h : pushesLoop dirInput depth keyword entries = []
  · simp [pushes, h]
  · simp [pushes, h]

theorem pushesLoop_cons_dot {dirInput : Str} {depth : Nat} {keyword name : Str} {node : Node}
    {rest : Listing} (hd : isDot name = true) :
    pushesLoop dirInput depth keyword (.cons name node rest) =
      pushesLoop dirInput depth keyword rest := by
  simp [pushesLoop, hd]

theorem pushesLoop_cons_reg {dirInput : Str} {depth : Nat} {keyword name : Str} {size : Nat}
    {rest : Listing} (hd : ¬ isDot name = true) :
    pushesLoop dirInput depth keyword (.cons name (.reg size) rest) =
      (if name = keyword then [fileRecord depth (fullPathOf dirInput name)] else []) ++
        pushesLoop dirInput depth keyword rest := by
  simp [pushesLoop, hd]

theorem pushesLoop_cons_dir {dirInput : Str} {depth : Nat} {keyword name : Str}
    {entries rest : Listing} (hd : ¬ isDot name = true) :
    pushesLoop dirInput depth keyword (.cons name (.dir entries) rest) =
      pushes (fullPathOf dirInput name) (depth + 1) keyword (.dir entries) ++
        pushesLoop dirInput depth keyword rest := by
  simp [pushesLoop, hd]

theorem pushesLoop_cons_skip {dirInput : Str} {depth : Nat} {keyword name : Str} {node : Node}
    {rest : Listing} (hn : node = .lockedDir ∨ node = .other ∨ node = .noStat) :
    pushesLoop dirInput depth keyword (.cons name node rest) =
      pushesLoop dirInput depth keyword rest := by
  rcases hn with rfl | rfl | rfl <;> by_cases hd : isDot name = true <;>
    simp [pushesLoop, pushes, hd]

mutual
theorem pushes_under (dirInput : Str) (depth : Nat) (keyword : Str) :
    (node : Node) → ∀ r ∈ pushes dirInput depth keyword node, Under dirInput r.path
  | .dir entries => by
    intro r hr
    rcases mem_pushes_dir.1 hr with h | ⟨-, rfl⟩
    · obtain ⟨n, -, hn⟩ := pushesLoop_under dirInput depth keyword entries r h
      exact under_trans (under_fullPathOf dirInput n) hn
    · exact under_refl _
  | .reg _ => by simp [pushes]
  | .lockedDir => by simp [pushes]
  | .other => by simp [pushes]
  | .noStat => by simp [pushes]
termination_by node => sizeOf node
theorem pushesLoop_under (dirInput : Str) (depth : Nat) (keyword : Str) :
    (entries : Listing) → ∀ r ∈ pushesLoop dirInput depth keyword entries,
      ∃ n ∈ entries.names, Under (fullPathOf dirInput n) r.path
  | .nil => by simp [pushesLoop]
  | .cons name node rest => by
    intro r hr
    have ih := pushesLoop_under dirInput depth keyword rest r
    have tl : r ∈ pushesLoop dirInput depth keyword rest →
        ∃ n ∈ (Listing.cons name node rest).names, Under (fullPathOf dirInput n) r.path := by
      intro h
      obtain ⟨n, hn, hu⟩ := ih h
      exact ⟨n, by simp [Listing.names, hn], hu⟩
    by_cases hd : isDot name = true
    · rw [pushesLoop_cons_dot hd] at hr
      exact tl hr
    · cases node with
      | reg size =>
        rw [pushesLoop_cons_reg hd, List.mem_append] at hr
        rcases hr with h | h
        · refine ⟨name, by simp [Listing.names], ?_⟩
          split at h
          · simp only [List.mem_singleton] at h
            subst h
            exact under_refl _
          · simp at h
        · exact tl h
      | dir entries =>
        rw [pushesLoop_cons_dir hd, List.mem_append] at hr
        rcases hr with h | h
        · exact ⟨name, by simp [Listing.names],
            pushes_under (fullPathOf dirInput name) (depth + 1) keyword (.dir entries) r h⟩
        · exact tl h
      | lockedDir => rw [pushesLoop_cons_skip (by simp)] at hr; exact tl hr
      | other => rw [pushesLoop_cons_skip (by simp)] at hr; exact tl hr
      | noStat => rw [pushesLoop_cons_skip (by simp)] at hr; exact tl hr
termination_by entries => sizeOf entries
end

theorem names_no_slash : (entries : Listing) → entries.wf = true →
    ∀ m ∈ entries.names, '/' ∉ m
  | .nil => by simp [Listing.names]
  | .cons name node rest => by
    intro hwf m hm
    simp only [Listing.wf, Bool.and_eq_true, decide_eq_true_eq] at hwf
    simp only [Listing.names, List.mem_cons] at hm
    rcases hm with rfl | hm
    · exact hwf.1.1.1
    · exact names_no_slash rest hwf.2 m hm

mutual
theorem pushes_pairwise (dirInput : Str) (depth : Nat) (keyword : Str) :
    (node : Node) → node.wf = true →
      (pushes dirInput depth keyword node).Pairwise (fun a b => ¬ Under a.path b.path)
  | .dir entries => by
    intro hwf
    have ih := pushesLoop_pairwise dirInput depth keyword entries (by simpa [Node.wf] using hwf)
    by_cases h : pushesLoop dirInput depth keyword entries = []
    · simp [pushes, h]
    · simp only [pushes, h, if_false]
      rw [List.pairwise_append]
      refine ⟨ih, by simp, ?_⟩
      intro a ha b hb
      simp only [List.mem_singleton] at hb
      subst hb
      obtain ⟨n, -, hn⟩ := pushesLoop_under dirInput depth keyword entries a ha
      intro hu
      exact not_under_fullPathOf_self dirInput n (under_trans hn hu)
  | .reg _ => by simp [pushes]
  | .lockedDir => by simp [pushes]
  | .other => by simp [pushes]
  | .noStat => by simp [pushes]
termination_by node => sizeOf node
theorem pushesLoop_pairwise (dirInput : Str) (depth : Nat) (keyword : Str) :
    (entries : Listing) → entries.wf = true →
      (pushesLoop dirInput depth keyword entries).Pairwise (fun a b => ¬ Under a.path b.path)
  | .nil => by simp [pushesLoop]
  | .cons name node rest => by
    intro hwf
    simp only [Listing.wf, Bool.and_eq_true, decide_eq_true_eq] at hwf
    obtain ⟨⟨⟨hslash, hfresh⟩, hnode⟩, hrest⟩ := hwf
    have ih := pushesLoop_pairwise dirInput depth keyword rest hrest
    -- records of the first entry against records of the later entries
    have sep : ∀ a : Record, Under (fullPathOf dirInput name) a.path →
        ∀ b ∈ pushesLoop dirInput depth keyword rest, ¬ Under a.path b.path := by
      intro a ha b hb hab
      obtain ⟨m, hm, hmu⟩ := pushesLoop_under dirInput depth keyword rest b hb
      have hmslash : '/' ∉ m := names_no_slash rest hrest m hm
      have := sibling_name_eq hslash hmslash (under_trans ha hab) hmu
      subst this
      exact hfresh hm
    by_cases hd : isDot name = true
    · rw [pushesLoop_cons_dot hd]; exact ih
    · cases node with
      | reg size =>
        rw [pushesLoop_cons_reg hd, List.pairwise_append]
        refine ⟨?_, ih, ?_⟩
        · split <;> simp
        · intro a ha b hb
          split at ha
          · simp only [List.mem_singleton] at ha
            subst ha
            exact sep _ (under_refl _) b hb
          · simp at ha
      | dir entries =>
        rw [pushesLoop_cons_dir hd, List.pairwise_append]
        refine ⟨pushes_pairwise _ _ _ (.dir entries) hnode, ih, ?_⟩
        intro a ha b hb
        exact sep a (pushes_under _ _ _ _ a ha) b hb
      | lockedDir => rw [pushesLoop_cons_skip (by simp)]; exact ih
      | other => rw [pushesLoop_cons_skip (by simp)]; exact ih
      | noStat => rw [pushesLoop_cons_skip (by simp)]; exact ih
termination_by entries => sizeOf entries
end

/-! ## What is pushed -/

mutual
theorem pushes_eq_nil_iff (dirInput : Str) (depth : Nat) (keyword p : Str) (lvl : Nat) :
    (node : Node) → (pushes dirInput depth keyword node = [] ↔
      ∀ it ∈ node.descendants p lvl, it.isRegNamed keyword = false)
  | .dir entries => by
    have ih := pushesLoop_eq_nil_iff dirInput depth keyword p lvl entries
    by_cases h : pushesLoop dirInput depth keyword entries = []
    · simp only [pushes, h, if_true, true_iff, Node.descendants]
      exact ih.1 h
    · simp only [pushes, h, if_false, Node.descendants]
      constructor
      · intro h2; simp at h2
      · intro h2; exact absurd (ih.2 h2) h
  | .reg _ => by simp [pushes, Node.descendants]
  | .lockedDir => by simp [pushes, Node.descendants]
  | .other => by simp [pushes, Node.descendants]
  | .noStat => by simp [pushes, Node.descendants]
termination_by node => sizeOf node
theorem pushesLoop_eq_nil_iff (dirInput : Str) (depth : Nat) (keyword p : Str) (lvl : Nat) :
    (entries : Listing) → (pushesLoop dirInput depth keyword entries = [] ↔
      ∀ it ∈ entries.items p lvl, it.isRegNamed keyword = false)
  | .nil => by simp [pushesLoop, Listing.items]
  | .cons name node rest => by
    have ih := pushesLoop_eq_nil_iff dirInput depth keyword p lvl rest
    by_cases hd : isDot name = true
    · rw [pushesLoop_cons_dot hd]
      simpa [Listing.items, hd] using ih
    · cases node with
      | reg size =>
        rw [pushesLoop_cons_reg hd]
        by_cases hk : name = keyword
        · subst hk
          simp only [if_true, List.singleton_append, List.cons_ne_nil, false_iff, not_forall]
          refine ⟨⟨fullPathOf p name, lvl, name, .reg size⟩, ?_, ?_⟩
          · simp [Listing.items, hd]
          · simp [Item.isRegNamed]
        · simp [Listing.items, hd, hk, Node.descendants, Item.isRegNamed, ih]
      | dir entries =>
        rw [pushesLoop_cons_dir hd]
        have ih2 := pushes_eq_nil_iff (fullPathOf dirInput name) (depth + 1) keyword
          (fullPathOf p name) (lvl + 1) (.dir entries)
        simp only [List.append_eq_nil, ih2, ih, Listing.items, hd, Bool.false_eq_true, if_false,
          List.cons_append, List.mem_cons, List.mem_append, forall_eq_or_imp, Item.isRegNamed,
          true_and]
        constructor
        · rintro ⟨h1, h2⟩ it (h | h)
          · exact h1 it h
          · exact h2 it h
        · intro h
          exact ⟨fun it hit => h it (Or.inl hit), fun it hit => h it (Or.inr hit)⟩
      | lockedDir =>
        rw [pushesLoop_cons_skip (by simp)]
        simp [Listing.items, hd, Node.descendants, Item.isRegNamed, ih]
      | other =>
        rw [pushesLoop_cons_skip (by simp)]
        simp [Listing.items, hd, Node.descendants, Item.isRegNamed, ih]
      | noStat =>
        rw [pushesLoop_cons_skip (by simp)]
        simp [Listing.items, hd, Node.descendants, Item.isRegNamed, ih]
termination_by entries => sizeOf entries
end

theorem pushes_ne_nil_iff (dirInput : Str) (depth : Nat) (keyword : Str) (node : Node) :
    pushes dirInput depth keyword node ≠ [] ↔ node.containsMatch keyword = true := by
  rw [Ne, pushes_eq_nil_iff dirInput depth keyword [] 0 node]
  simp [Node.containsMatch]

theorem mem_items_cons {p : Str} {lvl : Nat} {name : Str} {node : Node} {rest : Listing}
    {it : Item} (hd : ¬ isDot name = true) :
    it ∈ (Listing.cons name node rest).items p lvl ↔
      it = ⟨fullPathOf p name, lvl, name, node⟩ ∨
        it ∈ node.descendants (fullPathOf p name) (lvl + 1) ∨ it ∈ rest.items p lvl := by
  simp [Listing.items, hd]

theorem pushesLoop_ne_nil_iff (dirInput : Str) (depth : Nat) (keyword : Str)
    (entries : Listing) :
    pushesLoop dirInput depth keyword entries ≠ [] ↔
      (Node.dir entries).containsMatch keyword = true := by
  rw [← pushes_ne_nil_iff dirInput depth keyword (.dir entries)]
  by_cases h : pushesLoop dirInput depth keyword entries = []
  · simp [pushes, h]
  · simp [pushes, h]

mutual
theorem pushes_files (dirInput : Str) (depth : Nat) (keyword : Str) (lvl : Nat) :
    (node : Node) →
      ((pushes dirInput depth keyword node).filter (fun r => !r.isDir)).map Record.path =
        ((node.descendants dirInput lvl).filter (Item.isRegNamed keyword)).map Item.path
  | .dir entries => by
    have ih := pushesLoop_files dirInput depth keyword lvl entries
    by_cases h : pushesLoop dirInput depth keyword entries = []
    · simp only [pushes, h, if_true, Node.descendants]
      rw [← ih, h]
    · simp only [pushes, h, if_false, Node.descendants, List.filter_append, List.map_append, ih]
      simp [dirRecord]
  | .reg _ => by simp [pushes, Node.descendants]
  | .lockedDir => by simp [pushes, Node.descendants]
  | .other => by simp [pushes, Node.descendants]
  | .noStat => by simp [pushes, Node.descendants]
termination_by node => sizeOf node
theorem pushesLoop_files (dirInput : Str) (depth : Nat) (keyword : Str) (lvl : Nat) :
    (entries : Listing) →
      ((pushesLoop dirInput depth keyword entries).filter (fun r => !r.isDir)).map Record.path =
        ((entries.items dirInput lvl).filter (Item.isRegNamed keyword)).map Item.path
  | .nil => by simp [pushesLoop, Listing.items]
  | .cons name node rest => by
    have ih := pushesLoop_files dirInput depth keyword lvl rest
    by_cases hd : isDot name = true
    · rw [pushesLoop_cons_dot hd]
      simpa [Listing.items, hd] using ih
    · cases node with
      | reg size =>
        rw [pushesLoop_cons_reg hd]
        by_cases hk : name = keyword
        · subst hk
          simp [Listing.items, hd, Node.descendants, Item.isRegNamed, ih, fileRecord,
            List.filter_cons]
        · simp [Listing.items, hd, hk, Node.descendants, Item.isRegNamed, ih, List.filter_cons]
      | dir entries =>
        rw [pushesLoop_cons_dir hd]
        have ih2 := pushes_files (fullPathOf dirInput name) (depth + 1) keyword (lvl + 1)
          (.dir entries)
        simp [Listing.items, hd, List.filter_append, ih, ih2, List.filter_cons,
          Item.isRegNamed]
      | lockedDir =>
        rw [pushesLoop_cons_skip (by simp)]
        simp [Listing.items, hd, Node.descendants, Item.isRegNamed, ih, List.filter_cons]
      | other =>
        rw [pushesLoop_cons_skip (by simp)]
        simp [Listing.items, hd, Node.descendants, Item.isRegNamed, ih, List.filter_cons]
      | noStat =>
        rw [pushesLoop_cons_skip (by simp)]
        simp [Listing.items, hd, Node.descendants, Item.isRegNamed, ih, List.filter_cons]
termination_by entries => sizeOf entries
end

mutual
theorem pushes_dirs (dirInput : Str) (depth : Nat) (keyword : Str) (lvl : Nat) (q : Str) :
    (node : Node) →
      ((∃ r ∈ pushes dirInput depth keyword node, r.isDir = true ∧ r.path = q) ↔
        (q = dirInput ∧ node.containsMatch keyword = true) ∨
          ∃ it ∈ node.descendants dirInput lvl,
            it.path = q ∧ it.node.containsMatch keyword = true)
  | .dir entries => by
    have ih := pushesLoop_dirs dirInput depth keyword lvl q entries
    have hne := pushesLoop_ne_nil_iff dirInput depth keyword entries
    simp only [mem_pushes_dir, Node.descendants, ← ih, ← hne]
    constructor
    · rintro ⟨r, h | ⟨h, rfl⟩, hr1, hr2⟩
      · exact Or.inr ⟨r, h, hr1, hr2⟩
      · exact Or.inl ⟨by simpa [dirRecord] using hr2.symm, h⟩
    · rintro (⟨rfl, h⟩ | ⟨r, h, hr1, hr2⟩)
      · exact ⟨dirRecord depth q, Or.inr ⟨h, rfl⟩, rfl, rfl⟩
      · exact ⟨r, Or.inl h, hr1, hr2⟩
  | .reg _ => by simp [pushes, Node.descendants, Node.containsMatch]
  | .lockedDir => by simp [pushes, Node.descendants, Node.containsMatch]
  | .other => by simp [pushes, Node.descendants, Node.containsMatch]
  | .noStat => by simp [pushes, Node.descendants, Node.containsMatch]
termination_by node => sizeOf node
theorem pushesLoop_dirs (dirInput : Str) (depth : Nat) (keyword : Str) (lvl : Nat) (q : Str) :
    (entries : Listing) →
      ((∃ r ∈ pushesLoop dirInput depth keyword entries, r.isDir = true ∧ r.path = q) ↔
        ∃ it ∈ entries.items dirInput lvl, it.path = q ∧ it.node.containsMatch keyword = true)
  | .nil => by simp [pushesLoop, Listing.items]
  | .cons name node rest => by
    have ih := pushesLoop_dirs dirInput depth keyword lvl q rest
    by_cases hd : isDot name = true
    · rw [pushesLoop_cons_dot hd]
      simpa [Listing.items, hd] using ih
    · cases node with
      | reg size =>
        rw [pushesLoop_cons_reg hd]
        by_cases hk : name = keyword
        · subst hk
          simpa [Listing.items, hd, Node.descendants, Node.containsMatch, fileRecord]
            using ih
        · simpa [Listing.items, hd, hk, Node.descendants, Node.containsMatch] using ih
      | dir entries =>
        rw [pushesLoop_cons_dir hd]
        have ih2 := pushes_dirs (fullPathOf dirInput name) (depth + 1) keyword (lvl + 1) q
          (.dir entries)
        constructor
        · rintro ⟨r, hr, hr1, hr2⟩
          rcases List.mem_append.1 hr with h | h
          · rcases ih2.1 ⟨r, h, hr1, hr2⟩ with ⟨rfl, hc⟩ | ⟨it, h1, h2⟩
            · exact ⟨_, (mem_items_cons hd).2 (Or.inl rfl), rfl, hc⟩
            · exact ⟨it, (mem_items_cons hd).2 (Or.inr (Or.inl h1)), h2⟩
          · obtain ⟨it, h1, h2⟩ := ih.1 ⟨r, h, hr1, hr2⟩
            exact ⟨it, (mem_items_cons hd).2 (Or.inr (Or.inr h1)), h2⟩
        · rintro ⟨it, hit, h2⟩
          rcases (mem_items_cons hd).1 hit with rfl | h1 | h1
          · obtain ⟨r, hr, hr'⟩ := ih2.2 (Or.inl ⟨h2.1.symm, h2.2⟩)
            exact ⟨r, List.mem_append.2 (Or.inl hr), hr'⟩
          · obtain ⟨r, hr, hr'⟩ := ih2.2 (Or.inr ⟨it, h1, h2⟩)
            exact ⟨r, List.mem_append.2 (Or.inl hr), hr'⟩
          · obtain ⟨r, hr, hr'⟩ := ih.2 ⟨it, h1, h2⟩
            exact ⟨r, List.mem_append.2 (Or.inr hr), hr'⟩
      | lockedDir =>
        rw [pushesLoop_cons_skip (by simp)]
        simpa [Listing.items, hd, Node.descendants, Node.containsMatch] using ih
      | other =>
        rw [pushesLoop_cons_skip (by simp)]
        simpa [Listing.items, hd, Node.descendants, Node.containsMatch] using ih
      | noStat =>
        rw [pushesLoop_cons_skip (by simp)]
        simpa [Listing.items, hd, Node.descendants, Node.containsMatch] using ih
termination_by entries => sizeOf entries
end

/-! ## The text of a record -/

mutual
theorem mode1_eq (dirInput : Str) (depth : Nat) (out : Str) :
    (node : Node) → (∀ it ∈ node.descendants dirInput depth, it.isRegOrOpenDir = true) →
      mode1 dirInput depth out node = out ++ (node.descendants dirInput depth).flatMap Item.line
  | .dir entries => by
    intro h
    simpa [mode1, Node.descendants] using
      mode1Loop_eq dirInput depth entries out (by simpa [Node.descendants] using h)
  | .reg _ => by simp [mode1, Node.descendants]
  | .lockedDir => by simp [mode1, Node.descendants]
  | .other => by simp [mode1, Node.descendants]
  | .noStat => by simp [mode1, Node.descendants]
termination_by node => sizeOf node
theorem mode1Loop_eq (dirInput : Str) (depth : Nat) :
    (entries : Listing) → (out : Str) →
      (∀ it ∈ entries.items dirInput depth, it.isRegOrOpenDir = true) →
      mode1Loop dirInput depth entries out =
        out ++ (entries.items dirInput depth).flatMap Item.line
  | .nil, out, _ => by simp [mode1Loop, Listing.items]
  | .cons name node rest, out, h => by
    by_cases hd : isDot name = true
    · have ih := mode1Loop_eq dirInput depth rest out (by simpa [Listing.items, hd] using h)
      simpa [mode1Loop, Listing.items, hd] using ih
    · have hrest : ∀ it ∈ rest.items dirInput depth, it.isRegOrOpenDir = true :=
        fun it hit => h it ((mem_items_cons hd).2 (Or.inr (Or.inr hit)))
      have hhead := h _ ((mem_items_cons hd).2 (Or.inl rfl))
      cases node with
      | reg size =>
        simp [mode1Loop, Listing.items, hd, lstat, S_ISREG, Node.descendants, Item.line,
          printIndent_eq, mode1Loop_eq dirInput depth rest _ hrest]
      | dir entries =>
        have hsub : ∀ it ∈ (Node.dir entries).descendants (fullPathOf dirInput name) (depth + 1),
            it.isRegOrOpenDir = true :=
          fun it hit => h it ((mem_items_cons hd).2 (Or.inr (Or.inl hit)))
        simp [mode1Loop, Listing.items, hd, lstat, S_ISREG, S_ISDIR, Item.line,
          printIndent_eq, mode1Loop_eq dirInput depth rest _ hrest,
          mode1_eq (fullPathOf dirInput name) (depth + 1) _ (.dir entries) hsub]
      | lockedDir => simp [Item.isRegOrOpenDir] at hhead
      | other => simp [Item.isRegOrOpenDir] at hhead
      | noStat => simp [Item.isRegOrOpenDir] at hhead
termination_by entries => sizeOf entries
end

theorem length_le_one_of_pairwise {α : Type} {R : α → α → Prop} :
    ∀ (l : List α), l.Pairwise R → (∀ a ∈ l, ∀ b ∈ l, ¬ R a b) → l.length ≤ 1
  | [], _, _ => by simp
  | [_], _, _ => by simp
  | a :: b :: l, hp, hn => by
    exfalso
    have := (List.pairwise_cons.1 hp).1 b (by simp)
    exact hn a (by simp) b (by simp) this

/-! ## Search mode: the claims -/

theorem mode2_snd (dirInput : Str) (depth : Nat) (keyword : Str) (node : Node) :
    (mode2 dirInput depth keyword initstack node).2 = pushes dirInput depth keyword node := by
  simp [mode2_eq, initstack]

theorem pushes_filter_dir_length (root keyword : Str) (tree : Node) (hwf : tree.wf = true)
    (q : Str) :
    ((pushes root 0 keyword tree).filter (fun r => r.isDir && decide (r.path = q))).length ≤ 1 := by
  apply length_le_one_of_pairwise _ ((pushes_pairwise root 0 keyword tree hwf).filter _)
  intro a ha b hb
  simp only [List.mem_filter, Bool.and_eq_true, decide_eq_true_eq] at ha hb
  intro h
  apply h
  rw [ha.2.2, hb.2.2]
  exact under_refl q

theorem pushes_order (root keyword : Str) (tree : Node) (hwf : tree.wf = true)
    (i j : Nat) (a b : Record) (hi : (pushes root 0 keyword tree)[i]? = some a)
    (hj : (pushes root 0 keyword tree)[j]? = some b) (hin : Inside a.path b.path) : j < i := by
  by_contra hlt
  obtain ⟨hi', rfl⟩ := List.getElem?_eq_some.1 hi
  obtain ⟨hj', rfl⟩ := List.getElem?_eq_some.1 hj
  rcases Nat.lt_or_ge i j with h | h
  · exact List.pairwise_iff_getElem.1 (pushes_pairwise root 0 keyword tree hwf) i j hi' hj' h
      (under_of_inside hin)
  · have : i = j := by omega
    subst this
    exact not_inside_self _ hin

/-- Claim C1: the paths of the file records that `mode2(root, 0, K, s)` pushes onto a fresh
collection are exactly the full paths of the regular files of the tree whose name equals
`K`; an entry named `K` that is not a regular file is never among them. -/
theorem mode2_file_paths_eq_matching_regular_files (root keyword : Str) (tree : Node) (q : Str) :
    q ∈ ((mode2 root 0 keyword initstack tree).2.filter (fun r => !r.isDir)).map Record.path ↔
      q ∈ ((tree.descendants root 0).filter (Item.isRegNamed keyword)).map Item.path := by
  rw [mode2_snd, pushes_files root 0 keyword 0 tree]

/-- Claim C2: in a well-formed tree, every directory (the start directory included) that
contains, directly or transitively, a regular file named `K` has exactly one directory
record among the pushes of `mode2(root, 0, K, s)`. -/
theorem mode2_matching_directory_recorded_once (root keyword : Str) (tree : Node)
    (hwf : tree.wf = true) (q : Str) (n : Node) (hq : (q, n) ∈ placesOf root tree)
    (hn : n.containsMatch keyword = true) :
    ((mode2 root 0 keyword initstack tree).2.filter
      (fun r => r.isDir && decide (r.path = q))).length = 1 := by
  rw [mode2_snd]
  have hle := pushes_filter_dir_length root keyword tree hwf q
  have hex : ∃ r ∈ pushes root 0 keyword tree, r.isDir = true ∧ r.path = q := by
    rw [pushes_dirs root 0 keyword 0 q tree]
    simp only [placesOf, List.mem_cons, Prod.mk.injEq, List.mem_map] at hq
    rcases hq with ⟨rfl, rfl⟩ | ⟨it, hit, rfl, rfl⟩
    · exact Or.inl ⟨rfl, hn⟩
    · exact Or.inr ⟨it, hit, rfl, hn⟩
  obtain ⟨r, hr, hr1, hr2⟩ := hex
  have hpos : 0 < ((pushes root 0 keyword tree).filter
      (fun r => r.isDir && decide (r.path = q))).length :=
    List.length_pos_of_mem (List.mem_filter.2 ⟨hr, by simp [hr1, hr2]⟩)
  omega

/-- Witness of claim C2 on the scenario tree: `root/sub` is recorded exactly once. -/
theorem mode2_matching_directory_recorded_once_witness :
    scenarioTree.wf = true ∧
      ((mode2 "root".toList 0 "b.txt".toList initstack scenarioTree).2.filter
        (fun r => r.isDir && decide (r.path = "root/sub".toList))).length = 1 :=
  ⟨by decide,
    mode2_matching_directory_recorded_once "root".toList "b.txt".toList scenarioTree (by decide)
      "root/sub".toList
      (.dir (.cons "b.txt".toList (.reg 7)
        (.cons "deep".toList (.dir (.cons "c.txt".toList (.reg 9) .nil)) .nil)))
      (by simp [placesOf, scenarioTree, Node.descendants, Listing.items, isDot, fullPathOf])
      (by decide)⟩

/-- Claim C3: every directory record pushed by `mode2(root, 0, K, s)` is for a directory of the
tree that contains, directly or transitively, a regular file named `K`. -/
theorem mode2_directory_record_has_matching_descendant (root keyword : Str) (tree : Node)
    (r : Record) (hr : r ∈ (mode2 root 0 keyword initstack tree).2) (hd : r.isDir = true) :
    ∃ entries, (r.path, Node.dir entries) ∈ placesOf root tree ∧
      (Node.dir entries).containsMatch keyword = true := by
  rw [mode2_snd] at hr
  have h := (pushes_dirs root 0 keyword 0 r.path tree).1 ⟨r, hr, hd, rfl⟩
  have key : ∀ n : Node, (r.path, n) ∈ placesOf root tree → n.containsMatch keyword = true →
      ∃ entries, (r.path, Node.dir entries) ∈ placesOf root tree ∧
        (Node.dir entries).containsMatch keyword = true := by
    intro n hmem hc
    cases n with
    | dir entries => exact ⟨entries, hmem, hc⟩
    | reg _ => simp [Node.containsMatch, Node.descendants] at hc
    | lockedDir => simp [Node.containsMatch, Node.descendants] at hc
    | other => simp [Node.containsMatch, Node.descendants] at hc
    | noStat => simp [Node.containsMatch, Node.descendants] at hc
  rcases h with ⟨hp, hc⟩ | ⟨it, hit, hp, hc⟩
  · exact key tree (by simp [placesOf, hp]) hc
  · exact key it.node (by
      simp only [placesOf, List.mem_cons, List.mem_map]
      exact Or.inr ⟨it, hit, by rw [hp]⟩) hc

/-- Claim C4: in a well-formed tree, a record for an entry strictly inside a directory is pushed
strictly before the record of that directory. -/
theorem mode2_pushes_inside_before_directory (root keyword : Str) (tree : Node)
    (hwf : tree.wf = true) (i j : Nat) (e d : Record)
    (hi : (mode2 root 0 keyword initstack tree).2[i]? = some e)
    (hj : (mode2 root 0 keyword initstack tree).2[j]? = some d)
    (_hd : d.isDir = true) (hin : Inside d.path e.path) : i < j := by
  rw [mode2_snd] at hi hj
  exact pushes_order root keyword tree hwf j i d e hj hi hin

/-- Claim C5, as amended: in a well-formed tree, the record of a directory is drained strictly
before the record of a matched file inside it. -/
theorem drain_directory_before_file_inside (root keyword : Str) (tree : Node)
    (hwf : tree.wf = true) (i j : Nat) (f d : Record)
    (hi : (drain (mode2 root 0 keyword initstack tree).2)[i]? = some f)
    (hj : (drain (mode2 root 0 keyword initstack tree).2)[j]? = some d)
    (_hf : f.isDir = false) (_hd : d.isDir = true) (hin : Inside d.path f.path) : j < i := by
  rw [mode2_snd] at hi hj
  have hp := pushes_pairwise root 0 keyword tree hwf
  have hr : (drain (pushes root 0 keyword tree)).Pairwise (fun a b => ¬ Under b.path a.path) := by
    unfold drain
    rw [List.pairwise_reverse]
    exact hp
  by_contra hlt
  obtain ⟨hi', rfl⟩ := List.getElem?_eq_some.1 hi
  obtain ⟨hj', rfl⟩ := List.getElem?_eq_some.1 hj
  rcases Nat.lt_or_ge i j with h | h
  · exact List.pairwise_iff_getElem.1 hr i j hi' hj' h (under_of_inside hin)
  · have : i = j := by omega
    subst this
    exact not_inside_self _ hin

/-- Witness of claim C3 on the scenario tree, at the record of `root/sub`. -/
theorem mode2_directory_record_has_matching_descendant_witness :
    dirRecord 1 "root/sub".toList ∈
        (mode2 "root".toList 0 "b.txt".toList initstack scenarioTree).2 ∧
      ∃ entries, ((dirRecord 1 "root/sub".toList).path, Node.dir entries) ∈
          placesOf "root".toList scenarioTree ∧
        (Node.dir entries).containsMatch "b.txt".toList = true :=
  ⟨by decide,
    mode2_directory_record_has_matching_descendant "root".toList "b.txt".toList scenarioTree
      (dirRecord 1 "root/sub".toList) (by decide) rfl⟩

/-- Witness of claim C4 on the scenario tree: `root/sub/b.txt` is pushed before `root/sub/`. -/
theorem mode2_pushes_inside_before_directory_witness :
    scenarioTree.wf = true ∧
      (mode2 "root".toList 0 "b.txt".toList initstack scenarioTree).2[0]? =
        some (fileRecord 1 "root/sub/b.txt".toList) ∧
      (mode2 "root".toList 0 "b.txt".toList initstack scenarioTree).2[1]? =
        some (dirRecord 1 "root/sub".toList) ∧
      (0 : Nat) < 1 :=
  ⟨by decide, by decide, by decide,
    mode2_pushes_inside_before_directory "root".toList "b.txt".toList scenarioTree (by decide)
      0 1 (fileRecord 1 "root/sub/b.txt".toList) (dirRecord 1 "root/sub".toList)
      (by decide) (by decide) rfl ⟨"b.txt".toList, by decide⟩⟩

/-- Claim C5, as stated, fails on the scenario tree: the record of `root/sub/b.txt` is drained at
position 2, after the record of `root/sub/` at position 1. -/
theorem drain_file_before_directory_fails :
    ¬ (∀ (i j : Nat) (f d : Record),
        (drain (mode2 "root".toList 0 "b.txt".toList initstack scenarioTree).2)[i]? = some f →
        (drain (mode2 "root".toList 0 "b.txt".toList initstack scenarioTree).2)[j]? = some d →
        f.isDir = false → d.isDir = true → Inside d.path f.path → i < j) := by
  intro h
  have := h 2 1 (fileRecord 1 "root/sub/b.txt".toList) (dirRecord 1 "root/sub".toList)
    (by decide) (by decide) rfl rfl ⟨"b.txt".toList, by decide⟩
  omega

/-- Witness of claim C5 as amended, on the scenario tree. -/
theorem drain_directory_before_file_inside_witness :
    scenarioTree.wf = true ∧
      (drain (mode2 "root".toList 0 "b.txt".toList initstack scenarioTree).2)[2]? =
        some (fileRecord 1 "root/sub/b.txt".toList) ∧
      (drain (mode2 "root".toList 0 "b.txt".toList initstack scenarioTree).2)[1]? =
        some (dirRecord 1 "root/sub".toList) ∧
      (1 : Nat) < 2 :=
  ⟨by decide, by decide, by decide,
    drain_directory_before_file_inside "root".toList "b.txt".toList scenarioTree (by decide)
      2 1 (fileRecord 1 "root/sub/b.txt".toList) (dirRecord 1 "root/sub".toList)
      (by decide) (by decide) rfl rfl ⟨"b.txt".toList, by decide⟩⟩

/-- Claim C6, as stated, fails: the search of the scenario tree for `b.txt` does push a record
for `root/`. -/
theorem scenario_root_is_recorded :
    ¬ (∀ r ∈ (mode2 "root".toList 0 "b.txt".toList initstack scenarioTree).2,
        r.path ≠ "root".toList) := by
  intro h
  exact h (dirRecord 0 "root".toList) (by decide) rfl

/-- Claim C6, as amended: the search of the scenario tree for `b.txt` drains exactly the
records of `root/`, `root/sub/` and `root/sub/b.txt`, in this order, and nothing for
`a.txt`, `deep/` or `deep/c.txt`. -/
theorem scenario_search_output :
    drain (mode2 "root".toList 0 "b.txt".toList initstack scenarioTree).2 =
        [dirRecord 0 "root".toList, dirRecord 1 "root/sub".toList,
          fileRecord 1 "root/sub/b.txt".toList] ∧
      (drain (mode2 "root".toList 0 "b.txt".toList initstack scenarioTree).2).map Record.text =
        ["root/".toList, "    root/sub/".toList, "    root/sub/b.txt".toList] ∧
      configure "root".toList (some "b.txt".toList) scenarioTree [] =
        "Looking for: b.txt\nroot/\n    root/sub/\n    root/sub/b.txt\n".toList := by
  refine ⟨?_, ?_, ?_⟩ <;> decide

/-! ## List mode: the claims -/

/-- Claim C7, as stated, fails: for a directory holding one symbolic link `mode1` writes no line
at all, although the tree has one entry. -/
theorem mode1_writes_no_line_for_symlink :
    ¬ ((mode1 "root".toList 0 [] symlinkOnlyTree).count '\n' =
        (symlinkOnlyTree.descendants "root".toList 0).length) := by
  decide

/-- Claim C7, as amended: when the start directory and every directory below it open and
every entry of the tree is a regular file or a directory on which the status lookup
succeeds, `mode1(root, 0)` writes exactly the lines of the entries, one line per entry,
each indented by 4 times its nesting level. -/
theorem mode1_one_line_per_entry (root : Str) (tree : Node) (hroot : tree.opens = true)
    (h : ∀ it ∈ tree.descendants root 0, it.isRegOrOpenDir = true) :
    mode1 root 0 [] tree = (tree.descendants root 0).flatMap Item.line := by
  cases tree with
  | dir entries => simpa using mode1_eq root 0 [] (.dir entries) h
  | reg _ => simp [Node.opens] at hroot
  | lockedDir => simp [Node.opens] at hroot
  | other => simp [Node.opens] at hroot
  | noStat => simp [Node.opens] at hroot

/-- Witness of claim C7 as amended, on the scenario tree. -/
theorem mode1_one_line_per_entry_witness :
    scenarioTree.opens = true ∧
      (∀ it ∈ scenarioTree.descendants "root".toList 0, it.isRegOrOpenDir = true) ∧
      mode1 "root".toList 0 [] scenarioTree =
        (scenarioTree.descendants "root".toList 0).flatMap Item.line :=
  ⟨by decide, by decide,
    mode1_one_line_per_entry "root".toList scenarioTree (by decide) (by decide)⟩

/-- Claim C10: a symbolic link at depth 1 makes `mode1` write four spaces that the tree without
the link does not get; the next line is then indented twice. -/
theorem mode1_symlink_leaves_indentation :
    mode1 "root".toList 0 [] linkTree = "sub/ (directory)\n        f (0 bytes)\n".toList ∧
      mode1 "root".toList 0 [] linkTreeRemoved = "sub/ (directory)\n    f (0 bytes)\n".toList := by
  constructor <;> decide

/-! ## `mode2` with the integer types of C: the claims that quantify over `depth` -/

theorem machine_dirRecord_eq (d : Nat) (p : Str) (h : p.length + 4 * d + 2 ≤ Machine.INT_MAX) :
    Machine.dirRecord d p = some (dirRecord d p) := by
  simp only [Machine.INT_MAX] at h
  have hw : Machine.wrapInt ((d : Int) * 4) = (d : Int) * 4 := by
    unfold Machine.wrapInt
    omega
  have hs : Machine.wrapSize ((p.length : Int) + (d : Int) * 4 + 2) =
      p.length + d * 4 + 2 := by
    unfold Machine.wrapSize
    omega
  have ht : ((d : Int) * 4).toNat = d * 4 := by omega
  have hm : Machine.malloc (p.length + d * 4 + 2) = true := by
    simp only [Machine.malloc, Machine.PTRDIFF_MAX, decide_eq_true_eq]
    omega
  simp [Machine.dirRecord, dirRecord, hw, hs, hm, ht, Machine.padInt, pad]

theorem machine_dirRecord_fields {d : Int} {p : Str} {r : Record}
    (h : Machine.dirRecord d p = some r) : r.isDir = true ∧ r.path = p := by
  unfold Machine.dirRecord at h
  simp only at h
  split at h
  · simp only [Option.some.injEq] at h
    subst h
    exact ⟨rfl, rfl⟩
  · simp at h

theorem machine_fileRecord_fields {d : Int} {p : Str} {r : Record}
    (h : Machine.fileRecord d p = some r) : r.isDir = false ∧ r.path = p := by
  unfold Machine.fileRecord at h
  simp only at h
  split at h
  · simp only [Option.some.injEq] at h
    subst h
    exact ⟨rfl, rfl⟩
  · simp at h

theorem machine_mode2_dir (p : Str) (d : Int) (keyword : Str) (s : Stack) (entries : Listing) :
    Machine.mode2 p d keyword s (.dir entries) =
      if (Machine.mode2Loop p d keyword entries 0 s).1 ≠ 0 then
        match Machine.dirRecord d p with
        | some formattedDirPath =>
          ((Machine.mode2Loop p d keyword entries 0 s).1,
            push (Machine.mode2Loop p d keyword entries 0 s).2 formattedDirPath)
        | none => Machine.mode2Loop p d keyword entries 0 s
      else Machine.mode2Loop p d keyword entries 0 s := by
  simp [Machine.mode2]

theorem pushes_dir_eq_nil_iff (q : Str) (e : Nat) (keyword : Str) (entries : Listing) :
    pushes q e keyword (.dir entries) = [] ↔ pushesLoop q e keyword entries = [] := by
  by_cases h : pushesLoop q e keyword entries = [] <;> simp [pushes, h]

theorem elsewhere_of_child_dir {p keyword name : Str} {d : Int} {r : Record}
    (h : Machine.dirRecord d (fullPathOf p name) = some r) : Machine.Elsewhere p keyword r := by
  obtain ⟨h1, h2⟩ := machine_dirRecord_fields h
  refine ⟨?_, fun hf => ?_⟩
  · rw [h2]; simp [fullPathOf]
  · rw [h1] at hf; exact absurd hf (by simp)

theorem elsewhere_of_child_file {p keyword name : Str} {d : Int} {r : Record}
    (h : Machine.fileRecord d (fullPathOf (fullPathOf p name) keyword) = some r) :
    Machine.Elsewhere p keyword r := by
  obtain ⟨-, h2⟩ := machine_fileRecord_fields h
  refine ⟨?_, fun _ => ?_⟩
  · rw [h2]; simp [fullPathOf]
  · rw [h2]; simp [fullPathOf]
    omega

theorem elsewhere_of_child {p keyword name : Str} {r : Record}
    (h : Machine.Elsewhere (fullPathOf p name) keyword r) : Machine.Elsewhere p keyword r := by
  obtain ⟨h1, h2⟩ := h
  simp only [fullPathOf, List.length_append, List.length_singleton] at h1 h2
  exact ⟨by omega, fun hf => by have := h2 hf; omega⟩

mutual
theorem machine_mode2_fst (p : Str) (d : Int) (keyword : Str) (s : Stack) (q : Str) (e : Nat) :
    (node : Node) →
      (Machine.mode2 p d keyword s node).1 = if pushes q e keyword node = [] then 0 else 1
  | .dir entries => by
    rw [machine_mode2_dir]
    have ih := machine_mode2Loop_fst p d keyword q e entries 0 s
    have hp := pushes_dir_eq_nil_iff q e keyword entries
    by_cases h : pushesLoop q e keyword entries = []
    · simp only [h, if_true] at ih
      simp [ih, hp.2 h]
    · simp only [h, if_false] at ih
      have hp2 : ¬ pushes q e keyword (.dir entries) = [] := fun hh => h (hp.1 hh)
      simp only [ih, ne_eq, one_ne_zero, not_false_eq_true, if_true, hp2, if_false]
      split <;> simp [ih]
  | .reg _ => by simp [Machine.mode2, pushes]
  | .lockedDir => by simp [Machine.mode2, pushes]
  | .other => by simp [Machine.mode2, pushes]
  | .noStat => by simp [Machine.mode2, pushes]
termination_by node => sizeOf node
theorem machine_mode2Loop_fst (p : Str) (d : Int) (keyword : Str) (q : Str) (e : Nat) :
    (entries : Listing) → (has : Nat) → (s : Stack) →
      (Machine.mode2Loop p d keyword entries has s).1 =
        if pushesLoop q e keyword entries = [] then has else 1
  | .nil, has, s => by simp [Machine.mode2Loop, pushesLoop]
  | .cons name node rest, has, s => by
    have ih := machine_mode2Loop_fst p d keyword q e rest
    by_cases hd : isDot name = true
    · simp only [Machine.mode2Loop, hd, if_true, pushesLoop_cons_dot hd]
      exact ih has s
    · cases node with
      | reg size =>
        rw [pushesLoop_cons_reg hd]
        by_cases hk : name = keyword
        · subst hk
          simp only [Machine.mode2Loop, hd, lstat, S_ISDIR, S_ISREG]
          simp only [Bool.false_eq_true, if_false, decide_eq_true_eq, reduceCtorEq,
            decide_False, decide_True, Bool.and_self, if_true, List.singleton_append,
            List.cons_ne_nil]
          split <;> simp [ih]
        · simp [Machine.mode2Loop, hd, lstat, S_ISDIR, S_ISREG, hk, ih]
      | dir entries =>
        rw [pushesLoop_cons_dir hd]
        have h := machine_mode2_fst (fullPathOf p name) (Machine.wrapInt (d + 1)) keyword s
          (fullPathOf q name) (e + 1) (.dir entries)
        simp only [Machine.mode2Loop, hd, lstat, S_ISDIR, h, ih]
        by_cases hp : pushes (fullPathOf q name) (e + 1) keyword (.dir entries) = []
        · simp [hp, ih]
        · simp [hp, ih]
      | lockedDir =>
        rw [pushesLoop_cons_skip (by simp)]
        simp [Machine.mode2Loop, hd, lstat, S_ISDIR, Machine.mode2, ih]
      | other =>
        rw [pushesLoop_cons_skip (by simp)]
        simp [Machine.mode2Loop, hd, lstat, S_ISDIR, S_ISREG, ih]
      | noStat =>
        rw [pushesLoop_cons_skip (by simp)]
        simp [Machine.mode2Loop, hd, lstat, ih]
termination_by entries => sizeOf entries
end

mutual
theorem machine_mode2_snd (p : Str) (d : Int) (keyword : Str) (s : Stack) (q : Str) (e : Nat) :
    (node : Node) →
      ∃ new, (Machine.mode2 p d keyword s node).2 = s ++ new ∧
        (pushes q e keyword node = [] → new = []) ∧
        ∀ r ∈ new, Machine.dirRecord d p = some r ∨
          Machine.fileRecord d (fullPathOf p keyword) = some r ∨ Machine.Elsewhere p keyword r
  | .dir entries => by
    obtain ⟨new, h1, h2, h3⟩ := machine_mode2Loop_snd p d keyword q e entries 0 s
    have hf := machine_mode2Loop_fst p d keyword q e entries 0 s
    have hp := pushes_dir_eq_nil_iff q e keyword entries
    rw [machine_mode2_dir]
    by_cases h : pushesLoop q e keyword entries = []
    · simp only [h, if_true] at hf
      refine ⟨new, by simp [hf, h1], fun _ => h2 h, fun r hr => Or.inr (h3 r hr)⟩
    · simp only [h, if_false] at hf
      simp only [hf, ne_eq, one_ne_zero, not_false_eq_true, if_true]
      cases hrec : Machine.dirRecord d p with
      | none => exact ⟨new, by simp [h1], fun hh => absurd (hp.1 hh) h, fun r hr => Or.inr (h3 r hr)⟩
      | some rec =>
        refine ⟨new ++ [rec], by simp [h1, push], fun hh => absurd (hp.1 hh) h, fun r hr => ?_⟩
        rcases List.mem_append.1 hr with hr | hr
        · exact Or.inr (h3 r hr)
        · simp only [List.mem_singleton] at hr
          subst hr
          exact Or.inl rfl
  | .reg _ => ⟨[], by simp [Machine.mode2], fun _ => rfl, by simp⟩
  | .lockedDir => ⟨[], by simp [Machine.mode2], fun _ => rfl, by simp⟩
  | .other => ⟨[], by simp [Machine.mode2], fun _ => rfl, by simp⟩
  | .noStat => ⟨[], by simp [Machine.mode2], fun _ => rfl, by simp⟩
termination_by node => sizeOf node
theorem machine_mode2Loop_snd (p : Str) (d : Int) (keyword : Str) (q : Str) (e : Nat) :
    (entries : Listing) → (has : Nat) → (s : Stack) →
      ∃ new, (Machine.mode2Loop p d keyword entries has s).2 = s ++ new ∧
        (pushesLoop q e keyword entries = [] → new = []) ∧
        ∀ r ∈ new, Machine.fileRecord d (fullPathOf p keyword) = some r ∨
          Machine.Elsewhere p keyword r
  | .nil, has, s => ⟨[], by simp [Machine.mode2Loop], fun _ => rfl, by simp⟩
  | .cons name node rest, has, s => by
    have ih := machine_mode2Loop_snd p d keyword q e rest
    by_cases hd : isDot name = true
    · simp only [Machine.mode2Loop, hd, if_true, pushesLoop_cons_dot hd]
      exact ih has s
    · cases node with
      | reg size =>
        rw [pushesLoop_cons_reg hd]
        by_cases hk : name = keyword
        · subst hk
          simp only [Machine.mode2Loop, hd, lstat, S_ISDIR, S_ISREG]
          simp only [Bool.false_eq_true, if_false, decide_eq_true_eq, reduceCtorEq,
            decide_False, decide_True, Bool.and_self, if_true, List.singleton_append,
            List.cons_ne_nil, false_implies, true_and]
          cases hrec : Machine.fileRecord d (fullPathOf p name) with
          | none =>
            obtain ⟨new, h1, -, h3⟩ := ih 1 s
            rw [hrec] at h3
            exact ⟨new, by simp [h1], h3⟩
          | some rec =>
            obtain ⟨new, h1, -, h3⟩ := ih 1 (push s rec)
            rw [hrec] at h3
            simp only [push, List.append_assoc, List.singleton_append] at h1
            refine ⟨rec :: new, by simp [h1, push], fun r hr => ?_⟩
            rcases List.mem_cons.1 hr with hr | hr
            · subst hr
              exact Or.inl rfl
            · exact h3 r hr
        · obtain ⟨new, h1, h2, h3⟩ := ih has s
          exact ⟨new, by simp [Machine.mode2Loop, hd, lstat, S_ISDIR, S_ISREG, hk, h1],
            by simpa [hk] using h2, h3⟩
      | dir entries =>
        rw [pushesLoop_cons_dir hd]
        obtain ⟨n1, a1, a2, a3⟩ := machine_mode2_snd (fullPathOf p name) (Machine.wrapInt (d + 1))
          keyword s (fullPathOf q name) (e + 1) (.dir entries)
        simp only [Machine.mode2Loop, hd, lstat, S_ISDIR, a1]
        simp only [Bool.false_eq_true, if_false, decide_True, if_true]
        generalize (if (Machine.mode2 (fullPathOf p name) (Machine.wrapInt (d + 1)) keyword s
            (.dir entries)).1 ≠ 0 then 1 else has) = has2
        obtain ⟨n2, b1, b2, b3⟩ := ih has2 (s ++ n1)
        refine ⟨n1 ++ n2, by simp [b1], fun hh => ?_, fun r hr => ?_⟩
        · rw [List.append_eq_nil] at hh
          simp [a2 hh.1, b2 hh.2]
        · rcases List.mem_append.1 hr with hr | hr
          · rcases a3 r hr with h | h | h
            · exact Or.inr (elsewhere_of_child_dir h)
            · exact Or.inr (elsewhere_of_child_file h)
            · exact Or.inr (elsewhere_of_child h)
          · exact b3 r hr
      | lockedDir =>
        rw [pushesLoop_cons_skip (by simp)]
        simpa [Machine.mode2Loop, hd, lstat, S_ISDIR, Machine.mode2] using ih has s
      | other =>
        rw [pushesLoop_cons_skip (by simp)]
        simpa [Machine.mode2Loop, hd, lstat, S_ISDIR, S_ISREG] using ih has s
      | noStat =>
        rw [pushesLoop_cons_skip (by simp)]
        simpa [Machine.mode2Loop, hd, lstat] using ih has s
termination_by entries => sizeOf entries
end

/-- Claim C8, as stated, fails at depth `2 ^ 29`: `depth * 4` wraps to `INT_MIN`, the
requested sizes exceed `PTRDIFF_MAX`, both `malloc` calls fail, and `mode2` returns 1
without pushing the record of the directory. -/
theorem machine_mode2_returns_without_record :
    ¬ ((Machine.mode2 "root".toList 536870912 "b.txt".toList [] singleFileTree).1 ≠ 0 ↔
        ∃ r ∈ (Machine.mode2 "root".toList 536870912 "b.txt".toList [] singleFileTree).2,
          r.isDir = true ∧ r.path = "root".toList) := by
  have h : Machine.mode2 "root".toList 536870912 "b.txt".toList [] singleFileTree = (1, []) := by
    decide
  rw [h]
  simp

/-- Claim C8, as amended: `mode2` returns non-zero exactly when the directory contains,
directly or in some nested subdirectory, a regular file named `K`; when it returns zero
it pushes nothing; and when `strlen(p) + 4 * d + 2` is at most `INT_MAX`, it returns
non-zero exactly when its last push is the record of the directory itself. -/
theorem machine_mode2_returns_nonzero_iff_contains_match (p : Str) (d : Nat) (keyword : Str)
    (s : Stack) (node : Node) :
    ((Machine.mode2 p d keyword s node).1 ≠ 0 ↔ node.containsMatch keyword = true) ∧
      ((Machine.mode2 p d keyword s node).1 = 0 → (Machine.mode2 p d keyword s node).2 = s) ∧
      (p.length + 4 * d + 2 ≤ Machine.INT_MAX →
        ((Machine.mode2 p d keyword s node).1 ≠ 0 ↔
          ∃ inner r, Machine.dirRecord d p = some r ∧
            (Machine.mode2 p d keyword s node).2 = push (s ++ inner) r)) := by
  have hf := machine_mode2_fst p d keyword s p d node
  have hc := pushes_ne_nil_iff p d keyword node
  obtain ⟨new, h1, h2, -⟩ := machine_mode2_snd p d keyword s p d node
  have hzero : (Machine.mode2 p d keyword s node).1 = 0 →
      (Machine.mode2 p d keyword s node).2 = s := by
    intro h0
    by_cases hp : pushes p d keyword node = []
    · rw [h1, h2 hp, List.append_nil]
    · rw [hf] at h0
      simp [hp] at h0
  refine ⟨?_, hzero, fun hb => ⟨fun hne => ?_, ?_⟩⟩
  · rw [hf, ← hc]
    by_cases hp : pushes p d keyword node = [] <;> simp [hp]
  · cases node with
    | dir entries =>
      rw [machine_mode2_dir] at hne ⊢
      obtain ⟨inner, hi, -, -⟩ := machine_mode2Loop_snd p d keyword p d entries 0 s
      by_cases hl : (Machine.mode2Loop p d keyword entries 0 s).1 ≠ 0
      · refine ⟨inner, dirRecord d p, machine_dirRecord_eq d p hb, ?_⟩
        rw [if_pos hl, machine_dirRecord_eq d p hb]
        show push _ _ = _
        rw [hi]
      · rw [if_neg hl] at hne
        exact absurd hne hl
    | reg _ => simp [Machine.mode2] at hne
    | lockedDir => simp [Machine.mode2] at hne
    | other => simp [Machine.mode2] at hne
    | noStat => simp [Machine.mode2] at hne
  · rintro ⟨inner, r, -, hr⟩ h0
    have := congrArg List.length ((hzero h0).symm.trans hr)
    simp [push] at this

/-- Witness of claim C8 as amended, on the scenario tree at depth 0. -/
theorem machine_mode2_returns_nonzero_iff_contains_match_witness :
    "root".toList.length + 4 * 0 + 2 ≤ Machine.INT_MAX ∧
      ((Machine.mode2 "root".toList (0 : Nat) "b.txt".toList [] scenarioTree).1 ≠ 0 ↔
        ∃ inner r, Machine.dirRecord (0 : Nat) "root".toList = some r ∧
          (Machine.mode2 "root".toList (0 : Nat) "b.txt".toList [] scenarioTree).2 =
            push ([] ++ inner) r) :=
  ⟨by decide,
    (machine_mode2_returns_nonzero_iff_contains_match "root".toList 0 "b.txt".toList []
      scenarioTree).2.2 (by decide)⟩

end Ls2
